import Mathlib

/- Verification development for a small search engine: inverted index,
TF-IDF ranking, URL normalization, fetch retry and crawl loop, shallowly
embedded from the Python sources (indexer.py, ranker.py,
text_processor.py, web_crawler.py). -/

namespace SearchSpec

/-- Python strings are modelled as lists of characters. -/
abbrev Str := List Char

/-- A posting (doc_id, frequency, positions) as stored in
InvertedIndex.index. -/
abbrev Posting := Nat × Nat × List Nat

/-- Key of the documents dict: an int while in memory, a string after a
JSON round trip (json.dump stringifies integer object keys). -/
abbrev DocKey := Sum Nat Str

/-- Document metadata as built by Indexer.index_page and stored by
InvertedIndex.add_document. -/
structure Meta where
  url : Str
  title : Str
  description : Str
  crawl_time : Str
deriving DecidableEq

/-- Association-list lookup, modelling a Python dict read. -/
def lookupA {K V : Type} [DecidableEq K] : List (K × V) → K → Option V
  | [], _ => none
  | (k1, v1) :: rest, k => if k = k1 then some v1 else lookupA rest k

/-- Python dict assignment d[k] = v: overwrite the existing entry in
place, otherwise append (dicts preserve insertion order). -/
def dictSet {K V : Type} [DecidableEq K] : List (K × V) → K → V → List (K × V)
  | [], k, v => [(k, v)]
  | (k1, v1) :: rest, k, v =>
    if k1 = k then (k1, v) :: rest else (k1, v1) :: dictSet rest k v

/-- Modelling d[k].append(v) on a defaultdict(list): append v to the list
at key k, starting a fresh entry with the default [] when k is absent. -/
def pushAssoc {K V : Type} [DecidableEq K] : List (K × List V) → K → V → List (K × List V)
  | [], k, v => [(k, [v])]
  | (k1, vs) :: rest, k, v =>
    if k1 = k then (k1, vs ++ [v]) :: rest else (k1, vs) :: pushAssoc rest k v

/-- The in-memory inverted index (class InvertedIndex): index maps a term
to its posting list, documents maps doc keys to metadata, and
document_count is a separately maintained counter. -/
structure InvIndex where
  index : List (Str × List Posting)
  document_count : Nat
  documents : List (DocKey × Meta)
deriving DecidableEq

/-- InvertedIndex.__init__ . -/
def emptyIndex : InvIndex := ⟨[], 0, []⟩

/-- InvertedIndex.add_document: stores the metadata under the integer doc
id and unconditionally increments document_count. -/
def add_document (st : InvIndex) (doc_id : Nat) (m : Meta) : InvIndex :=
  { st with
      documents := dictSet st.documents (Sum.inl doc_id) m,
      document_count := st.document_count + 1 }

/-- Positions (0-based) at which term t occurs in a token list whose
first token carries offset p. -/
def posOf (t : Str) : Nat → List Str → List Nat
  | _, [] => []
  | p, s :: rest => if s = t then p :: posOf t (p + 1) rest else posOf t (p + 1) rest

/-- The position-map loop of InvertedIndex.index_terms: for each
(position, term) in enumerate(terms), term_positions[term].append(position). -/
def buildPositions : Nat → List Str → List (Str × List Nat) → List (Str × List Nat)
  | _, [], m => m
  | p, s :: rest, m => buildPositions (p + 1) rest (pushAssoc m s p)

/-- InvertedIndex.index_terms: group this call's tokens by term with
their 0-based positions, then append one posting
(doc_id, frequency, positions) per distinct term to that term's posting
list in the index. -/
def index_terms (st : InvIndex) (doc_id : Nat) (terms : List Str) : InvIndex :=
  { st with
      index :=
        (buildPositions 0 terms []).foldl
          (fun idx ent => pushAssoc idx ent.1 (doc_id, ent.2.length, ent.2)) st.index }

/-- InvertedIndex.get_postings as a state transformer: it evaluates
self.index.get(term, []), a pure lookup with default which, unlike
defaultdict subscripting, creates no entry for a missing key; the
receiver is returned unchanged. -/
def get_postings_op (st : InvIndex) (term : Str) : List Posting × InvIndex :=
  ((lookupA st.index term).getD [], st)

/-- Result component of get_postings_op. -/
def get_postings (st : InvIndex) (term : Str) : List Posting :=
  (get_postings_op st term).1

/-- JSON stringification of dict keys performed by json.dump: integer
keys become their decimal-string representation. -/
def jsonKey : DocKey → DocKey
  | Sum.inl n => Sum.inr (toString n).data
  | Sum.inr s => Sum.inr s

/-- Contents of the JSON file written by InvertedIndex.save_to_json. -/
structure JsonData where
  documents : List (DocKey × Meta)
  index : List (Str × List Posting)
deriving DecidableEq

/-- InvertedIndex.save_to_json: dumps {documents, index}; json.dump
stringifies the integer doc-id keys, posting tuples become JSON arrays
(identified with tuples here since load_from_json turns them back into
tuples element by element). -/
def save_to_json (st : InvIndex) : JsonData :=
  ⟨st.documents.map (fun kv => (jsonKey kv.1, kv.2)), st.index⟩

/-- InvertedIndex.load_from_json into a fresh InvertedIndex: documents
are taken as read from the JSON file, document_count is set to
len(documents), and the index is rebuilt term by term in file order. -/
def load_from_json (d : JsonData) : InvIndex :=
  ⟨d.index, d.documents.length, d.documents⟩

/-- Read self.documents.get(doc_id) for an integer doc id. -/
def docGet (st : InvIndex) (doc_id : Nat) : Option Meta :=
  lookupA st.documents (Sum.inl doc_id)

/-- Characters stripped by Python str.strip() (the ASCII whitespace
relevant to URLs). -/
def isPySpace (c : Char) : Bool :=
  c = ' ' || c = '\t' || c = '\n' || c = '\x0d' || c = '\x0b' || c = '\x0c'

/-- Python str.strip(): drop leading and trailing whitespace. -/
def pyStrip (l : Str) : Str :=
  ((l.dropWhile isPySpace).reverse.dropWhile isPySpace).reverse

/-- Python s.count(c) for a single character. -/
def countChar (c : Char) (l : Str) : Nat :=
  (l.filter (fun x => x = c)).length

/-- Python s.rstrip(c): remove every trailing occurrence of c. -/
def rstripAll (c : Char) (l : Str) : Str :=
  (l.reverse.dropWhile (fun x => x = c)).reverse

/-- Python s.split(c)[0]: the part of s before the first occurrence
of c. -/
def splitHead (c : Char) (l : Str) : Str :=
  l.takeWhile (fun x => !(x = c))

/-- URLProcessor.normalize_url: strip whitespace; if the URL ends with a
slash and holds more than three slashes, strip the trailing slashes;
finally drop everything from the first hash on. -/
def normalize_url (u : Str) : Str :=
  let u1 := pyStrip u
  let u2 :=
    if u1.getLast? = some '/' ∧ 3 < countChar '/' u1 then rstripAll '/' u1 else u1
  splitHead '#' u2

/-- Python str.lower(), per character (ASCII case mapping). -/
def pyLower (l : Str) : Str := l.map Char.toLower

/-- Python substring test a in b. -/
def pyIn (a b : Str) : Bool :=
  b.tails.any (fun t => a.isPrefixOf t)

/-- TFIDFRanker.calculate_idf as a pure function of the index (the
ranker's idf_cache memoizes exactly this per-term value): 0 for a term
with no postings, otherwise log(N / df) with N the document count and df
the length of the posting list, or 0 when N = 0. -/
noncomputable def calculate_idf (st : InvIndex) (term : Str) : ℝ :=
  let postings := get_postings st term
  if postings = [] then 0
  else
    let N := st.document_count
    let df := postings.length
    if df = 0 then 0
    else if 0 < N then Real.log ((N : ℝ) / (df : ℝ)) else 0

/-- The scan of TFIDFRanker.calculate_tf over a posting list: the
frequency of the first posting whose doc id matches, 0.0 if none does. -/
noncomputable def tfLoop (doc_id : Nat) : List Posting → ℝ
  | [] => 0
  | (pd, f, _) :: rest => if pd = doc_id then (f : ℝ) else tfLoop doc_id rest

/-- TFIDFRanker.calculate_tf. -/
noncomputable def calculate_tf (st : InvIndex) (term : Str) (doc_id : Nat) : ℝ :=
  tfLoop doc_id (get_postings st term)

/-- TFIDFRanker.score_document with title-boost factor boost_title: sum
over the query terms of tf * idf, multiplied by the boost when the
lowercased term occurs in the lowercased title. -/
noncomputable def score_document (st : InvIndex) (boost_title : ℝ)
    (query_terms : List Str) (doc_id : Nat) (m : Meta) : ℝ :=
  query_terms.foldl
    (fun score term =>
      let tf := calculate_tf st term doc_id
      let idf := calculate_idf st term
      let tfidf := tf * idf
      let tfidf2 := if pyIn (pyLower term) (pyLower m.title) then tfidf * boost_title else tfidf
      score + tfidf2) 0

/-- The empty metadata dict used by documents.get(doc_id, {}): every
field reads back as the empty string. -/
def defaultMeta : Meta := ⟨[], [], [], []⟩

/-- Descending-score comparison modelling the stable
scores.sort(key=lambda x: x[1], reverse=True) of
TFIDFRanker.rank_results. -/
def rdesc (a b : Nat × ℝ) : Prop := b.2 ≤ a.2

noncomputable instance : DecidableRel rdesc := fun a b => Real.decidableLE b.2 a.2

instance : IsTotal (Nat × ℝ) rdesc := ⟨fun a b => le_total b.2 a.2⟩

instance : IsTrans (Nat × ℝ) rdesc := ⟨fun _ _ _ h1 h2 => le_trans h2 h1⟩

/-- TFIDFRanker.rank_results: score each candidate (with metadata
defaulting to {}), keep the strictly positive scores in candidate order,
and sort by score descending; Python list.sort is stable, modelled by
insertion sort under the descending comparison. -/
noncomputable def rank_results (st : InvIndex) (boost_title : ℝ)
    (query_terms : List Str) (doc_ids : List Nat) : List (Nat × ℝ) :=
  let scores := doc_ids.foldl
    (fun acc doc_id =>
      let m := (docGet st doc_id).getD defaultMeta
      let s := score_document st boost_title query_terms doc_id m
      if 0 < s then acc ++ [(doc_id, s)] else acc) []
  List.insertionSort rdesc scores

/-- The doc ids encountered while Ranker.search scans each query term's
postings, in scan order with duplicates; the Python code feeds them one
by one into a set. -/
def encounteredIds (st : InvIndex) (query_terms : List Str) : List Nat :=
  query_terms.foldl (fun acc term => acc ++ (get_postings st term).map (fun p => p.1)) []

/-- One iteration of the scoring loop in TFIDFRanker.rank_results, as a
partial map: the (doc_id, score) pair the loop appends, or none when the
score is not strictly positive. -/
noncomputable def scoreEntry (st : InvIndex) (boost_title : ℝ) (query_terms : List Str)
    (doc_id : Nat) : Option (Nat × ℝ) :=
  let m := (docGet st doc_id).getD defaultMeta
  let s := score_document st boost_title query_terms doc_id m
  if 0 < s then some (doc_id, s) else none

/-- One formatted entry of the Ranker.search result list. -/
structure SearchResult where
  doc_id : Nat
  url : Str
  title : Str
  description : Str
  score : ℝ

/-- The result dict Ranker.search builds for one ranked
(doc_id, score) pair, metadata defaulting to {}. -/
noncomputable def searchFormat (st : InvIndex) (ds : Nat × ℝ) : SearchResult :=
  let m := (docGet st ds.1).getD defaultMeta
  ⟨ds.1, m.url, m.title, m.description, ds.2⟩

/-- Ranker.search: collect the candidate doc ids into a set, rank them,
and format the first max_results ranked entries.  The enumeration order
of the Python set (list(doc_ids_set), a CPython hash-table order) enters
as the parameter setEnum. -/
noncomputable def search (setEnum : List Nat → List Nat) (st : InvIndex) (boost_title : ℝ)
    (query_terms : List Str) (max_results : Nat) : List SearchResult :=
  let cands := setEnum (encounteredIds st query_terms)
  if cands = [] then []
  else
    let ranked := rank_results st boost_title query_terms cands
    (ranked.take max_results).map (searchFormat st)

/-- First free slot of an 8-slot table scanning from index i, at most
fuel probes. -/
def findFree (table : List (Option Nat)) : Nat → Nat → Option Nat
  | _, 0 => none
  | i, fuel + 1 =>
    if (table.getD (i % 8) none).isNone then some (i % 8) else findFree table (i + 1) fuel

/-- Modelled from the CPython semantics of the set built by
Ranker.search: a small set of ints lives in an open-addressed table of 8
slots (kept while the set has fewer than 5 entries), an int hashes to
itself and lands at hash mod 8 (next free slot on a collision), and
list(s) reads the slots in index order.  Exact for the collision-free
small sets this development evaluates it on. -/
def pySetAdd (table : List (Option Nat)) (v : Nat) : List (Option Nat) :=
  if some v ∈ table then table
  else
    match findFree table (v % 8) 8 with
    | some i => table.set i (some v)
    | none => table

/-- list(set(l)) for a small list of small ints under the pySetAdd
model. -/
def pySet8 (l : List Nat) : List Nat :=
  (l.foldl pySetAdd (List.replicate 8 none)).filterMap id

/-- The slice of a crawled page that the crawl loop consumes: its
outbound links (PageContent.links). -/
structure PageC where
  links : List Str
deriving DecidableEq

/-- Mutable state of WebCrawler: visited_urls (a set, modelled by the
list of its members, newest first), to_visit and crawled_pages. -/
structure CrawlState where
  visited : List Str
  to_visit : List Str
  crawled : List PageC
deriving DecidableEq

/-- The link-enqueueing loop of WebCrawler.crawl_worker: normalize each
extracted link and keep it when it is not yet visited and
should_follow_link accepts it. -/
def newLinksOf (follow : Str → Str → Bool) (visited2 : List Str) (nurl : Str)
    (links : List Str) : List Str :=
  links.foldl
    (fun acc link =>
      let nlink := normalize_url link
      if nlink ∉ visited2 ∧ follow nurl nlink = true then acc ++ [nlink] else acc) []

/-- WebCrawler.crawl_worker run as the single worker.  The collaborators
are parameters: fetchO gives the outcome of fetch_page on a url (None on
failure), robotsOk the robots.txt verdict, follow the
should_follow_link test. -/
def crawl_worker (fetchO : Str → Option PageC) (robotsOk : Str → Bool)
    (respect_robots : Bool) (follow : Str → Str → Bool) (max_pages : Nat)
    (st : CrawlState) : CrawlState :=
  match hv : st.to_visit with
  | [] => st
  | url :: rest =>
    if hc : st.crawled.length < max_pages then
      let nurl := normalize_url url
      if nurl ∈ st.visited then
        crawl_worker fetchO robotsOk respect_robots follow max_pages
          ⟨st.visited, rest, st.crawled⟩
      else
        let visited2 := nurl :: st.visited
        if respect_robots ∧ robotsOk nurl = false then
          crawl_worker fetchO robotsOk respect_robots follow max_pages
            ⟨visited2, rest, st.crawled⟩
        else
          match fetchO nurl with
          | none =>
            crawl_worker fetchO robotsOk respect_robots follow max_pages
              ⟨visited2, rest, st.crawled⟩
          | some page =>
            let newLinks := newLinksOf follow visited2 nurl page.links
            crawl_worker fetchO robotsOk respect_robots follow max_pages
              ⟨visited2, rest ++ newLinks, st.crawled ++ [page]⟩
    else st
termination_by (max_pages - st.crawled.length, st.to_visit.length)
decreasing_by
  · exact Prod.Lex.right _ (by simp [hv])
  · exact Prod.Lex.right _ (by simp [hv])
  · exact Prod.Lex.right _ (by simp [hv])
  · refine Prod.Lex.left _ _ ?_
    simp only [List.length_append, List.length_cons, List.length_nil]
    omega

/-- Outcome of one HTTP GET inside WebCrawler.fetch_page: a 200 response
with parsed content, a non-200 status, a timeout, or another network
error. -/
inductive FetchOutcome where
  | ok : PageC → FetchOutcome
  | badStatus : FetchOutcome
  | timeout : FetchOutcome
  | netError : FetchOutcome

/-- WebCrawler.fetch_page, the network modelled as the outcome of each
numbered attempt; returns the page (if any), the number of GET attempts
performed, and the backoff delays slept (retry_backoff ** attempt before
each retry).  A non-200 status returns None at once; only timeouts and
other errors retry, while attempt < retry_attempts. -/
noncomputable def fetch_page (oracle : Nat → FetchOutcome) (retry_backoff : ℝ)
    (retry_attempts : Nat) (attempt : Nat) : Option PageC × Nat × List ℝ :=
  match oracle attempt with
  | FetchOutcome.ok p => (some p, 1, [])
  | FetchOutcome.badStatus => (none, 1, [])
  | FetchOutcome.timeout =>
    if _h : attempt < retry_attempts then
      let r := fetch_page oracle retry_backoff retry_attempts (attempt + 1)
      (r.1, r.2.1 + 1, retry_backoff ^ attempt :: r.2.2)
    else (none, 1, [])
  | FetchOutcome.netError =>
    if _h : attempt < retry_attempts then
      let r := fetch_page oracle retry_backoff retry_attempts (attempt + 1)
      (r.1, r.2.1 + 1, retry_backoff ^ attempt :: r.2.2)
    else (none, 1, [])
termination_by retry_attempts - attempt
decreasing_by all_goals omega

/-- Keys of an association list, in order. -/
def keysOf {K V : Type} (m : List (K × V)) : List K := m.map Prod.fst

/-- The specification's reading of tf(t, d): the frequency field of the
first posting for the term whose doc id equals doc_id, 0.0 when no
posting for doc_id exists (later postings for the same doc id are
ignored).  Stated from the spec to be compared with calculate_tf. -/
noncomputable def tfSpec (st : InvIndex) (term : Str) (doc_id : Nat) : ℝ :=
  match (get_postings st term).find? (fun p => p.1 == doc_id) with
  | some p => (p.2.1 : ℝ)
  | none => 0

/-- A three-document example index: docs 1, 8 and 2 registered, term "a"
indexed for doc 1 and then for doc 8. -/
def exIndex : InvIndex :=
  index_terms
    (index_terms
      (add_document (add_document (add_document emptyIndex 1 defaultMeta) 8 defaultMeta) 2
        defaultMeta)
      1 ["a".data])
    8 ["a".data]

/-- exIndex with term "b" additionally indexed once for doc 1. -/
def exIndex2 : InvIndex := index_terms exIndex 1 ["b".data]

example : pySet8 [1, 8] = [8, 1] := by decide
example : get_postings exIndex "a".data = [(1, 1, [0]), (8, 1, [0])] := by decide
example : exIndex.document_count = 3 := by decide
example : encounteredIds exIndex ["a".data] = [1, 8] := by decide
example : pySet8 [1, 2] = [1, 2] := by decide
example : normalize_url "  http://a.com/p/ ".data = "http://a.com/p".data := by decide
example : normalize_url "http://a.com/p/#f".data = "http://a.com/p/".data := by decide
example : pyIn "ell".data "hello".data = true := by decide
example : pyIn "z".data "hello".data = false := by decide
example : pyIn [] "x".data = true := by decide

example : (add_document emptyIndex 1 ⟨[], [], [], []⟩).document_count = 1 := rfl

example :
    get_postings (index_terms emptyIndex 1 ["a".data, "b".data, "a".data]) "a".data
      = [(1, 2, [0, 2])] := by decide

theorem lookupA_pushAssoc {K V : Type} [DecidableEq K] (m : List (K × List V)) (k : K) (v : V)
    (k2 : K) :
    lookupA (pushAssoc m k v) k2 =
      if k2 = k then some ((lookupA m k).getD [] ++ [v]) else lookupA m k2 := by
  induction m with
  | nil => by_cases h : k2 = k <;> simp [pushAssoc, lookupA, h]
  | cons kv rest ih =>
    obtain ⟨k1, vs⟩ := kv
    by_cases h1 : k1 = k
    · subst h1
      by_cases h2 : k2 = k1 <;> simp [pushAssoc, lookupA, h2]
    · have hk1 : ¬k = k1 := fun hh => h1 hh.symm
      by_cases h2 : k2 = k1
      · have hk2 : ¬k2 = k := fun hh => h1 (h2.symm.trans hh)
        simp [pushAssoc, lookupA, h1, h2, hk2]
      · simp only [pushAssoc, if_neg h1, lookupA, if_neg h2, if_neg hk1]
        rw [ih]

theorem keysOf_pushAssoc {K V : Type} [DecidableEq K] (m : List (K × List V)) (k : K) (v : V) :
    keysOf (pushAssoc m k v) = if k ∈ keysOf m then keysOf m else keysOf m ++ [k] := by
  induction m with
  | nil => simp [pushAssoc, keysOf]
  | cons kv rest ih =>
    obtain ⟨k1, vs⟩ := kv
    by_cases h : k1 = k
    · subst h; simp [pushAssoc, keysOf]
    · simp only [pushAssoc, if_neg h, keysOf, List.map_cons] at ih ⊢
      rw [ih]
      by_cases hm : k ∈ List.map Prod.fst rest
      · have hcond : k ∈ k1 :: List.map Prod.fst rest := List.mem_cons_of_mem _ hm
        simp [hm, hcond]
      · have hcond : k ∉ k1 :: List.map Prod.fst rest := by
          intro hc
          rcases List.mem_cons.mp hc with hc | hc
          · exact h hc.symm
          · exact hm hc
        rw [if_neg hm, if_neg hcond]
        simp

theorem nodup_keysOf_pushAssoc {K V : Type} [DecidableEq K] (m : List (K × List V)) (k : K)
    (v : V) (h : (keysOf m).Nodup) : (keysOf (pushAssoc m k v)).Nodup := by
  rw [keysOf_pushAssoc]
  by_cases hm : k ∈ keysOf m <;> simp [hm, List.nodup_append, h]

theorem lookupA_eq_none_of_not_mem_keys {K V : Type} [DecidableEq K] (m : List (K × V)) (k : K)
    (h : k ∉ keysOf m) : lookupA m k = none := by
  induction m with
  | nil => rfl
  | cons kv rest ih =>
    simp only [keysOf, List.map_cons, List.mem_cons] at h
    push_neg at h
    simpa [lookupA, h.1] using ih (by simpa [keysOf] using h.2)

theorem lookupA_buildPositions (t : Str) (ts : List Str) :
    ∀ (p : Nat) (m : List (Str × List Nat)),
      lookupA (buildPositions p ts m) t =
        match lookupA m t with
        | some ps => some (ps ++ posOf t p ts)
        | none => if t ∈ ts then some (posOf t p ts) else none := by
  induction ts with
  | nil =>
    intro p m
    cases h : lookupA m t <;> simp [buildPositions, posOf, h]
  | cons s rest ih =>
    intro p m
    simp only [buildPositions]
    rw [ih]
    by_cases hs : s = t
    · subst hs
      rw [lookupA_pushAssoc]
      simp only [if_pos rfl]
      cases h : lookupA m s <;> simp [posOf, h]
    · rw [lookupA_pushAssoc]
      have ht : ¬t = s := fun h => hs h.symm
      rw [if_neg ht]
      cases h : lookupA m t <;> simp [posOf, hs, ht, h]

theorem nodup_keysOf_buildPositions (ts : List Str) :
    ∀ (p : Nat) (m : List (Str × List Nat)), (keysOf m).Nodup →
      (keysOf (buildPositions p ts m)).Nodup := by
  induction ts with
  | nil => intro p m h; simpa [buildPositions] using h
  | cons s rest ih => intro p m h; exact ih _ _ (nodup_keysOf_pushAssoc _ _ _ h)

theorem lookupA_foldl_pushAssoc (d : Nat) (t : Str) (entries : List (Str × List Nat)) :
    ∀ (idx : List (Str × List Posting)), (keysOf entries).Nodup →
      lookupA
          (entries.foldl (fun idx2 ent => pushAssoc idx2 ent.1 (d, ent.2.length, ent.2)) idx)
          t =
        match lookupA entries t with
        | some ps => some ((lookupA idx t).getD [] ++ [(d, ps.length, ps)])
        | none => lookupA idx t := by
  induction entries with
  | nil => intro idx _; rfl
  | cons ent rest ih =>
    intro idx hnd
    obtain ⟨k, ps⟩ := ent
    have hk : k ∉ keysOf rest := by
      simp only [keysOf, List.map_cons, List.nodup_cons] at hnd
      exact hnd.1
    have hrest : (keysOf rest).Nodup := by
      simp only [keysOf, List.map_cons, List.nodup_cons] at hnd
      exact hnd.2
    simp only [List.foldl_cons]
    rw [ih _ hrest]
    by_cases ht : t = k
    · subst ht
      rw [lookupA_eq_none_of_not_mem_keys rest t hk]
      rw [lookupA_pushAssoc]
      simp [lookupA]
    · rw [lookupA_pushAssoc, if_neg ht]
      cases h : lookupA rest t <;> simp [lookupA, ht, h]

theorem posOf_length_eq_count (t : Str) (ts : List Str) :
    ∀ p : Nat, (posOf t p ts).length = ts.count t := by
  induction ts with
  | nil => intro p; simp [posOf]
  | cons s rest ih =>
    intro p
    by_cases h : s = t <;> simp [posOf, h, List.count_cons, ih]

theorem posOf_shift (t : Str) (ts : List Str) :
    ∀ p : Nat, posOf t p ts = (posOf t 0 ts).map (fun i => p + i) := by
  induction ts with
  | nil => intro p; simp [posOf]
  | cons s rest ih =>
    intro p
    by_cases h : s = t <;>
      simp [posOf, h, ih 1, ih (p + 1), List.map_map, Function.comp, Nat.add_assoc,
        Nat.add_comm, Nat.add_left_comm]

theorem posOf_zero_eq_filter_range (t : Str) (ts : List Str) :
    posOf t 0 ts = (List.range ts.length).filter (fun i => decide (ts.getD i [] = t)) := by
  induction ts with
  | nil => simp [posOf]
  | cons s rest ih =>
    rw [List.length_cons, List.range_succ_eq_map]
    have hmap : ∀ s2 : Str,
        List.map Nat.succ
            (List.filter ((fun i => decide ((s2 :: rest)[i]?.getD [] = t)) ∘ Nat.succ)
              (List.range rest.length)) =
          List.map (fun i => i + 1)
            (List.filter (fun i => decide (rest[i]?.getD [] = t)) (List.range rest.length)) := by
      intro s2
      have hf : ((fun i => decide ((s2 :: rest)[i]?.getD [] = t)) ∘ Nat.succ) =
          (fun i => decide (rest[i]?.getD [] = t)) := by
        funext i
        simp [Function.comp]
      rw [hf]
    by_cases h : s = t
    · simp [posOf, h, posOf_shift t rest 1, ih, List.filter_map, Nat.add_comm 1, hmap]
    · simp [posOf, h, posOf_shift t rest 1, ih, List.filter_map, Nat.add_comm 1, hmap]

theorem get_postings_index_terms (st : InvIndex) (doc_id : Nat) (tokens : List Str) (t : Str)
    (h : t ∈ tokens) :
    get_postings (index_terms st doc_id tokens) t =
      get_postings st t ++ [(doc_id, (posOf t 0 tokens).length, posOf t 0 tokens)] := by
  show (lookupA
      ((buildPositions 0 tokens []).foldl
        (fun idx2 ent => pushAssoc idx2 ent.1 (doc_id, ent.2.length, ent.2)) st.index)
      t).getD [] = _
  rw [lookupA_foldl_pushAssoc _ _ _ _ (nodup_keysOf_buildPositions tokens 0 [] (by simp [keysOf]))]
  rw [lookupA_buildPositions]
  simp only [lookupA, if_pos h]
  rfl

/-- C8: for a term occurring in the call's token list, index_terms
appends exactly one posting to that term's posting list, carrying the
doc id, a frequency equal to the term's occurrence count in this call's
tokens, and a positions list of that same length holding the 0-based
offsets of the term within the call's token sequence; a second
index_terms call for the same doc id appends a further separate posting,
frequencies not being summed across calls. -/
theorem c8_index_terms_postings (st : InvIndex) (doc_id : Nat) (tokens : List Str) (t : Str)
    (h : 0 < tokens.count t) :
    get_postings (index_terms st doc_id tokens) t =
        get_postings st t ++ [(doc_id, tokens.count t, posOf t 0 tokens)] ∧
    (posOf t 0 tokens).length = tokens.count t ∧
    posOf t 0 tokens = (List.range tokens.length).filter (fun i => decide (tokens.getD i [] = t)) ∧
    (∀ tokens2 : List Str, 0 < tokens2.count t →
      get_postings (index_terms (index_terms st doc_id tokens) doc_id tokens2) t =
        get_postings st t ++ [(doc_id, tokens.count t, posOf t 0 tokens),
          (doc_id, tokens2.count t, posOf t 0 tokens2)]) := by
  have hmem : t ∈ tokens := List.count_pos_iff_mem.mp h
  have heq := get_postings_index_terms st doc_id tokens t hmem
  rw [posOf_length_eq_count t tokens 0] at heq
  refine ⟨heq, posOf_length_eq_count t tokens 0, posOf_zero_eq_filter_range t tokens, ?_⟩
  intro tokens2 h2
  have hmem2 : t ∈ tokens2 := List.count_pos_iff_mem.mp h2
  have heq2 := get_postings_index_terms (index_terms st doc_id tokens) doc_id tokens2 t hmem2
  rw [posOf_length_eq_count t tokens2 0, heq, List.append_assoc] at heq2
  simpa using heq2

theorem c8_index_terms_postings_witness :
    get_postings (index_terms emptyIndex 7 ["a".data, "b".data, "a".data]) "a".data =
        get_postings emptyIndex "a".data ++
          [(7, (["a".data, "b".data, "a".data]).count "a".data,
            posOf "a".data 0 ["a".data, "b".data, "a".data])] ∧
    get_postings
        (index_terms (index_terms emptyIndex 7 ["a".data, "b".data, "a".data]) 7 ["a".data])
        "a".data =
      get_postings emptyIndex "a".data ++
        [(7, (["a".data, "b".data, "a".data]).count "a".data,
          posOf "a".data 0 ["a".data, "b".data, "a".data]),
         (7, (["a".data]).count "a".data, posOf "a".data 0 ["a".data])] :=
  ⟨(c8_index_terms_postings emptyIndex 7 ["a".data, "b".data, "a".data] "a".data (by decide)).1,
   (c8_index_terms_postings emptyIndex 7 ["a".data, "b".data, "a".data] "a".data
      (by decide)).2.2.2 ["a".data] (by decide)⟩

/-- C10: get_postings is observation-only: as a state transformer it
returns the receiver unchanged (in particular no entry is created in the
index map for an unseen term, and documents and document_count are
unmodified), and for a term absent from the index map it returns the
empty posting list. -/
theorem c10_get_postings_pure (st : InvIndex) (t : Str) :
    (get_postings_op st t).2 = st ∧
    (lookupA st.index t = none → (get_postings_op st t).1 = []) := by
  refine ⟨rfl, fun h => ?_⟩
  simp [get_postings_op, h]

theorem c10_get_postings_pure_witness :
    (get_postings_op emptyIndex "a".data).2 = emptyIndex ∧
    (get_postings_op emptyIndex "a".data).1 = [] :=
  ⟨(c10_get_postings_pure emptyIndex "a".data).1,
   (c10_get_postings_pure emptyIndex "a".data).2 rfl⟩

/-- C4: the code violates the claimed document-count invariant: calling
add_document twice with docID 1 leaves document_count at 2 (the number
of calls), while the number of distinct docIDs ever added, the length of
the documents dict, is 1. -/
theorem c4_add_document_count_bug :
    (add_document (add_document emptyIndex 1 defaultMeta) 1 defaultMeta).document_count = 2 ∧
    (add_document (add_document emptyIndex 1 defaultMeta) 1 defaultMeta).documents.length = 1 ∧
    (2 : Nat) ≠ 1 := by
  refine ⟨rfl, by decide, by decide⟩

/-- C1: persistence is not a full-fidelity round trip: after
save_to_json and load_from_json into a fresh index, json.dump has turned
the integer documents key 1 into the string "1", so the stored document
is no longer retrievable under its original integer docID; with a
duplicated add_document the document count changes from 2 to 1 across
the round trip.  The posting lists themselves do round trip intact. -/
theorem c1_roundtrip_bug :
    docGet (add_document emptyIndex 1 defaultMeta) 1 = some defaultMeta ∧
    docGet (load_from_json (save_to_json (add_document emptyIndex 1 defaultMeta))) 1 = none ∧
    (add_document (add_document emptyIndex 1 defaultMeta) 1 defaultMeta).document_count = 2 ∧
    (load_from_json (save_to_json
        (add_document (add_document emptyIndex 1 defaultMeta) 1 defaultMeta))).document_count
      = 1 ∧
    (∀ (st : InvIndex) (t : Str),
      get_postings (load_from_json (save_to_json st)) t = get_postings st t) :=
  ⟨by decide, by decide, rfl, rfl, fun st t => rfl⟩

theorem head?_dropWhile_ne {α : Type} (p : α → Bool) (l : List α) :
    ∀ x, (l.dropWhile p).head? = some x → p x = false := by
  induction l with
  | nil => intro x hx; simp [List.dropWhile] at hx
  | cons a rest ih =>
    intro x hx
    by_cases h : p a
    · rw [List.dropWhile_cons_of_pos h] at hx
      exact ih x hx
    · rw [List.dropWhile_cons_of_neg h] at hx
      simp only [List.head?_cons, Option.some.injEq] at hx
      rw [← hx]
      exact Bool.eq_false_iff.mpr h

theorem mem_rstripAll {c x : Char} {l : Str} (h : x ∈ rstripAll c l) : x ∈ l := by
  unfold rstripAll at h
  rw [List.mem_reverse] at h
  have h2 : x ∈ l.reverse := (List.dropWhile_sublist _).mem h
  exact List.mem_reverse.mp h2

theorem getLast?_rstripAll_ne (c : Char) (l : Str) :
    ∀ x, (rstripAll c l).getLast? = some x → ¬x = c := by
  intro x hx
  unfold rstripAll at hx
  rw [List.getLast?_reverse] at hx
  have := head?_dropWhile_ne _ _ x hx
  simpa using this

theorem splitHead_not_mem (c : Char) (l : Str) : c ∉ splitHead c l := by
  intro h
  have := List.mem_takeWhile_imp h
  simp at this

theorem splitHead_eq_self {c : Char} {l : Str} (h : c ∉ l) : splitHead c l = l := by
  apply List.takeWhile_eq_self_iff.mpr
  intro x hx
  simp only [Bool.not_eq_true']
  exact decide_eq_false (fun he => h (he ▸ hx))

/-- C6 (counterexample): a URL carrying both a fragment and a trailing
slash before the fragment keeps the trailing slash: the code strips
trailing slashes before removing the fragment, so the normalized form of
http://a.com/p/#f is http://a.com/p/, which is deeper than the domain
root (more than three slashes) yet ends with a slash. -/
theorem c6_normalize_url_cex :
    normalize_url ("http://a.com/p/#f".data) = ("http://a.com/p/".data) ∧
    3 < countChar '/' (normalize_url ("http://a.com/p/#f".data)) ∧
    (normalize_url ("http://a.com/p/#f".data)).getLast? = some '/' :=
  ⟨by decide, by decide, by decide⟩

/-- C6 (amended): the normalized URL never contains a hash; and when the
stripped input itself ends with a slash, has more than three slashes and
carries no fragment, the normalized URL does not end with a slash.
Trailing-slash removal inspects the URL before the fragment is cut, so
a trailing slash that sits in front of a fragment survives. -/
theorem c6_normalize_url_amended (u : Str) :
    '#' ∉ normalize_url u ∧
    ((pyStrip u).getLast? = some '/' → 3 < countChar '/' (pyStrip u) → '#' ∉ pyStrip u →
      ∀ x, (normalize_url u).getLast? = some x → ¬x = '/') := by
  constructor
  · exact splitHead_not_mem '#' _
  · intro hslash hcount hhash x hx
    simp only [normalize_url] at hx
    rw [if_pos ⟨hslash, hcount⟩] at hx
    have hhash2 : '#' ∉ rstripAll '/' (pyStrip u) := fun hm => hhash (mem_rstripAll hm)
    rw [splitHead_eq_self hhash2] at hx
    exact getLast?_rstripAll_ne '/' (pyStrip u) x hx

theorem c6_normalize_url_amended_witness :
    '#' ∉ normalize_url ("http://a.com/p/".data) ∧ ¬('p' = '/') :=
  ⟨(c6_normalize_url_amended ("http://a.com/p/".data)).1,
   (c6_normalize_url_amended ("http://a.com/p/".data)).2 (by decide) (by decide) (by decide)
     'p' (by decide)⟩

/-- C7 (counterexample): the claimed monotonicity fails in the df = 0
case it includes: in exIndex, term "b" has df 0 and idf 0, term "a" has
df 2 and idf log(3/2) > 0, so the rarer term "b" gets the strictly
smaller idf. -/
theorem c7_idf_monotonic_cex :
    (get_postings exIndex ("b".data)).length < (get_postings exIndex ("a".data)).length ∧
    0 < (get_postings exIndex ("a".data)).length ∧
    calculate_idf exIndex ("b".data) < calculate_idf exIndex ("a".data) := by
  refine ⟨by decide, by decide, ?_⟩
  have hb : calculate_idf exIndex ("b".data) = 0 := by
    unfold calculate_idf
    rw [show get_postings exIndex ("b".data) = [] from by decide]
    simp
  have ha : calculate_idf exIndex ("a".data) = Real.log ((3 : ℝ) / 2) := by
    unfold calculate_idf
    rw [show get_postings exIndex ("a".data) = [(1, 1, [0]), (8, 1, [0])] from by decide,
      show exIndex.document_count = 3 from by decide]
    have h1 : ¬([((1 : Nat), (1 : Nat), ([0] : List Nat)), (8, 1, [0])] : List Posting) = [] := by
      decide
    simp only [if_neg h1]
    norm_num
  rw [hb, ha]
  exact Real.log_pos (by norm_num)

/-- C7 (amended): for two terms that both have at least one posting, the
one with the strictly smaller posting count (df) has the larger or equal
idf.  The df(term1) = 0 case the claim also covered fails, since there
idf(term1) is 0 while idf(term2) can be positive. -/
theorem c7_idf_monotonic (st : InvIndex) (t1 t2 : Str)
    (h1 : 0 < (get_postings st t1).length)
    (h12 : (get_postings st t1).length < (get_postings st t2).length) :
    calculate_idf st t2 ≤ calculate_idf st t1 := by
  have h2 : 0 < (get_postings st t2).length := lt_trans h1 h12
  have hne1 : ¬get_postings st t1 = [] := by
    intro h; rw [h] at h1; simp at h1
  have hne2 : ¬get_postings st t2 = [] := by
    intro h; rw [h] at h2; simp at h2
  have hd1 : ¬(get_postings st t1).length = 0 := Nat.pos_iff_ne_zero.mp h1
  have hd2 : ¬(get_postings st t2).length = 0 := Nat.pos_iff_ne_zero.mp h2
  unfold calculate_idf
  simp only [if_neg hne1, if_neg hne2, if_neg hd1, if_neg hd2]
  by_cases hN : 0 < st.document_count
  · simp only [if_pos hN]
    have hx : (0 : ℝ) < (st.document_count : ℝ) / ((get_postings st t2).length : ℝ) := by
      apply div_pos (by exact_mod_cast hN) (by exact_mod_cast h2)
    have hy : (0 : ℝ) < (st.document_count : ℝ) / ((get_postings st t1).length : ℝ) := by
      apply div_pos (by exact_mod_cast hN) (by exact_mod_cast h1)
    apply (Real.log_le_log_iff hx hy).mpr
    apply div_le_div_of_nonneg_left (by positivity) (by exact_mod_cast h1)
    exact_mod_cast h12.le
  · simp [if_neg hN]

theorem c7_idf_monotonic_witness :
    calculate_idf exIndex2 ("a".data) ≤ calculate_idf exIndex2 ("b".data) :=
  c7_idf_monotonic exIndex2 ("b".data) ("a".data) (by decide) (by decide)

theorem tfLoop_eq_find (doc_id : Nat) (l : List Posting) :
    tfLoop doc_id l =
      match l.find? (fun p => p.1 == doc_id) with
      | some p => (p.2.1 : ℝ)
      | none => 0 := by
  induction l with
  | nil => rfl
  | cons p rest ih =>
    obtain ⟨pd, f, pos⟩ := p
    by_cases h : pd = doc_id
    · subst h
      simp [tfLoop, List.find?]
    · have hb : (pd == doc_id) = false := beq_eq_false_iff_ne.mpr h
      simp [tfLoop, List.find?, h, hb, ih]

theorem calculate_tf_eq_tfSpec (st : InvIndex) (t : Str) (d : Nat) :
    calculate_tf st t d = tfSpec st t d := by
  unfold calculate_tf tfSpec
  exact tfLoop_eq_find d (get_postings st t)

theorem score_document_foldl_sum (st : InvIndex) (bt : ℝ) (doc_id : Nat) (m : Meta)
    (q : List Str) :
    ∀ init : ℝ,
      q.foldl (fun score term =>
        let tf := calculate_tf st term doc_id
        let idf := calculate_idf st term
        let tfidf := tf * idf
        let tfidf2 := if pyIn (pyLower term) (pyLower m.title) then tfidf * bt else tfidf
        score + tfidf2) init =
      init + (q.map (fun t =>
        tfSpec st t doc_id * calculate_idf st t *
          (if pyIn (pyLower t) (pyLower m.title) then bt else 1))).sum := by
  induction q with
  | nil => intro init; simp
  | cons t rest ih =>
    intro init
    rw [List.foldl_cons, ih, List.map_cons, List.sum_cons]
    rw [calculate_tf_eq_tfSpec]
    by_cases h : pyIn (pyLower t) (pyLower m.title)
    · simp only [if_pos h]
      ring
    · simp only [if_neg h]
      ring

/-- C2: the total score of a document is the sum, over the query terms,
of tf * idf scaled by the title-boost factor exactly when the lowercased
term is a substring of the lowercased stored title, where tf is the
frequency of the FIRST posting whose doc id matches (tfSpec, a find-first
reading) and 0 when none matches; and the tf scan really stops at the
first matching posting, ignoring any later postings for the same doc
id. -/
theorem c2_score_document (st : InvIndex) (boost_title : ℝ) (query_terms : List Str)
    (doc_id : Nat) (m : Meta) :
    score_document st boost_title query_terms doc_id m =
        (query_terms.map (fun t =>
          tfSpec st t doc_id * calculate_idf st t *
            (if pyIn (pyLower t) (pyLower m.title) then boost_title else 1))).sum ∧
    (∀ (pre post : List Posting) (f : Nat) (ps : List Nat),
      (∀ p ∈ pre, ¬p.1 = doc_id) →
      tfLoop doc_id (pre ++ (doc_id, f, ps) :: post) = (f : ℝ)) := by
  constructor
  · unfold score_document
    rw [score_document_foldl_sum, zero_add]
  · intro pre post f ps hpre
    induction pre with
    | nil => simp [tfLoop]
    | cons q rest ih =>
      obtain ⟨qd, qf, qp⟩ := q
      have hq : ¬qd = doc_id := hpre _ (List.mem_cons_self _ _)
      simp only [List.cons_append, tfLoop, if_neg hq]
      exact ih (fun p hp => hpre p (List.mem_cons_of_mem _ hp))

theorem c2_score_document_witness :
    score_document exIndex 2 ["a".data] 8 defaultMeta =
        ((["a".data]).map (fun t =>
          tfSpec exIndex t 8 * calculate_idf exIndex t *
            (if pyIn (pyLower t) (pyLower defaultMeta.title) then (2 : ℝ) else 1))).sum ∧
    tfLoop 8 ([((1 : Nat), (5 : Nat), ([0] : List Nat))] ++ (8, 4, [0]) :: []) = ((4 : Nat) : ℝ) :=
  ⟨(c2_score_document exIndex 2 ["a".data] 8 defaultMeta).1,
   (c2_score_document exIndex 2 ["a".data] 8 defaultMeta).2 [(1, 5, [0])] [] 4 [0] (by decide)⟩

/-- C5 (counterexample): a fetch failing with a non-200 HTTP status is
not retried: with retry_attempts = 3 the URL is dropped after a single
attempt and no backoff sleep, not after the claimed 3 + 1 attempts. -/
theorem c5_fetch_no_retry_on_status :
    fetch_page (fun _ => FetchOutcome.badStatus) 2 3 0 = (none, 1, []) ∧ (1 : Nat) ≠ 3 + 1 := by
  constructor
  · unfold fetch_page
    rfl
  · decide

/-- C5 (amended): only timeouts and network errors are retried, each
retry sleeping retry_backoff ^ attempt; a URL failing that way on every
attempt is dropped with no page after retry_attempts - attempt + 1 total
fetch attempts (retry_attempts + 1 starting from attempt 0) and the
geometric delay sequence.  A non-200 response is dropped at once after a
single attempt, with no retry and no delay. -/
theorem c5_fetch_retry_policy :
    (∀ (oracle : Nat → FetchOutcome) (b : ℝ) (r a : Nat),
      (∀ n, oracle n = FetchOutcome.timeout ∨ oracle n = FetchOutcome.netError) → a ≤ r →
      fetch_page oracle b r a =
        (none, r - a + 1, (List.range (r - a)).map (fun i => b ^ (a + i)))) ∧
    (∀ (oracle : Nat → FetchOutcome) (b : ℝ) (r a : Nat),
      oracle a = FetchOutcome.badStatus → fetch_page oracle b r a = (none, 1, [])) := by
  constructor
  · intro oracle b r a hor hle
    have main : ∀ (k a2 : Nat), a2 ≤ r → r - a2 = k →
        fetch_page oracle b r a2 =
          (none, k + 1, (List.range k).map (fun i => b ^ (a2 + i))) := by
      intro k
      induction k with
      | zero =>
        intro a2 hle2 hk
        have ha : ¬a2 < r := by omega
        rcases hor a2 with h | h <;>
          · unfold fetch_page
            rw [h]
            simp [ha]
      | succ k ih =>
        intro a2 hle2 hk
        have halt : a2 < r := by omega
        have hrec := ih (a2 + 1) (by omega) (by omega)
        have hdel : (List.range (k + 1)).map (fun i => b ^ (a2 + i)) =
            b ^ a2 :: (List.range k).map (fun i => b ^ (a2 + 1 + i)) := by
          rw [List.range_succ_eq_map, List.map_cons, List.map_map]
          refine congrArg₂ _ (by rw [Nat.add_zero]) ?_
          apply List.map_congr_left
          intro i _
          show b ^ (a2 + (i + 1)) = b ^ (a2 + 1 + i)
          have harith : a2 + (i + 1) = a2 + 1 + i := by omega
          rw [harith]
        rcases hor a2 with h | h <;>
          · unfold fetch_page
            rw [h]
            rw [dif_pos halt]
            simp only [hrec]
            rw [hdel]
    rw [main (r - a) a hle rfl]
  · intro oracle b r a h
    unfold fetch_page
    rw [h]

theorem c5_fetch_retry_policy_witness :
    fetch_page (fun _ => FetchOutcome.timeout) 2 3 0 =
        (none, 3 - 0 + 1, (List.range (3 - 0)).map (fun i => (2 : ℝ) ^ (0 + i))) ∧
    fetch_page (fun _ => FetchOutcome.badStatus) 5 2 0 = (none, 1, []) :=
  ⟨(c5_fetch_retry_policy).1 (fun _ => FetchOutcome.timeout) 2 3 0 (fun _ => Or.inl rfl)
      (by decide),
   (c5_fetch_retry_policy).2 (fun _ => FetchOutcome.badStatus) 5 2 0 rfl⟩

theorem crawl_worker_nil (fetchO : Str → Option PageC) (robotsOk : Str → Bool)
    (respect_robots : Bool) (follow : Str → Str → Bool) (max_pages : Nat) (st : CrawlState)
    (hv : st.to_visit = []) :
    crawl_worker fetchO robotsOk respect_robots follow max_pages st = st := by
  conv_lhs => unfold crawl_worker
  split
  · rfl
  · rename_i url rest heq
    rw [hv] at heq
    cases heq

theorem crawl_worker_cap (fetchO : Str → Option PageC) (robotsOk : Str → Bool)
    (respect_robots : Bool) (follow : Str → Str → Bool) (max_pages : Nat) (st : CrawlState)
    (url : Str) (rest : List Str) (hv : st.to_visit = url :: rest)
    (hc : ¬st.crawled.length < max_pages) :
    crawl_worker fetchO robotsOk respect_robots follow max_pages st = st := by
  conv_lhs => unfold crawl_worker
  split
  · rfl
  · rename_i url2 rest2 heq
    rw [hv] at heq
    injection heq with h1 h2
    subst h1
    subst h2
    rw [dif_neg hc]

theorem crawl_worker_visited (fetchO : Str → Option PageC) (robotsOk : Str → Bool)
    (respect_robots : Bool) (follow : Str → Str → Bool) (max_pages : Nat) (st : CrawlState)
    (url : Str) (rest : List Str) (hv : st.to_visit = url :: rest)
    (hc : st.crawled.length < max_pages) (hm : normalize_url url ∈ st.visited) :
    crawl_worker fetchO robotsOk respect_robots follow max_pages st =
      crawl_worker fetchO robotsOk respect_robots follow max_pages
        ⟨st.visited, rest, st.crawled⟩ := by
  conv_lhs => unfold crawl_worker
  split
  · rename_i heq
    rw [hv] at heq
    cases heq
  · rename_i url2 rest2 heq
    rw [hv] at heq
    injection heq with h1 h2
    subst h1
    subst h2
    rw [dif_pos hc, if_pos hm]

theorem crawl_worker_robots (fetchO : Str → Option PageC) (robotsOk : Str → Bool)
    (respect_robots : Bool) (follow : Str → Str → Bool) (max_pages : Nat) (st : CrawlState)
    (url : Str) (rest : List Str) (hv : st.to_visit = url :: rest)
    (hc : st.crawled.length < max_pages) (hm : normalize_url url ∉ st.visited)
    (hr : respect_robots = true ∧ robotsOk (normalize_url url) = false) :
    crawl_worker fetchO robotsOk respect_robots follow max_pages st =
      crawl_worker fetchO robotsOk respect_robots follow max_pages
        ⟨normalize_url url :: st.visited, rest, st.crawled⟩ := by
  conv_lhs => unfold crawl_worker
  split
  · rename_i heq
    rw [hv] at heq
    cases heq
  · rename_i url2 rest2 heq
    rw [hv] at heq
    injection heq with h1 h2
    subst h1
    subst h2
    rw [dif_pos hc, if_neg hm, if_pos hr]

theorem crawl_worker_fetch_none (fetchO : Str → Option PageC) (robotsOk : Str → Bool)
    (respect_robots : Bool) (follow : Str → Str → Bool) (max_pages : Nat) (st : CrawlState)
    (url : Str) (rest : List Str) (hv : st.to_visit = url :: rest)
    (hc : st.crawled.length < max_pages) (hm : normalize_url url ∉ st.visited)
    (hr : ¬(respect_robots = true ∧ robotsOk (normalize_url url) = false))
    (hf : fetchO (normalize_url url) = none) :
    crawl_worker fetchO robotsOk respect_robots follow max_pages st =
      crawl_worker fetchO robotsOk respect_robots follow max_pages
        ⟨normalize_url url :: st.visited, rest, st.crawled⟩ := by
  conv_lhs => unfold crawl_worker
  split
  · rename_i heq
    rw [hv] at heq
    cases heq
  · rename_i url2 rest2 heq
    rw [hv] at heq
    injection heq with h1 h2
    subst h1
    subst h2
    rw [dif_pos hc, if_neg hm, if_neg hr, hf]

theorem crawl_worker_fetch_some (fetchO : Str → Option PageC) (robotsOk : Str → Bool)
    (respect_robots : Bool) (follow : Str → Str → Bool) (max_pages : Nat) (st : CrawlState)
    (url : Str) (rest : List Str) (hv : st.to_visit = url :: rest)
    (hc : st.crawled.length < max_pages) (hm : normalize_url url ∉ st.visited)
    (hr : ¬(respect_robots = true ∧ robotsOk (normalize_url url) = false))
    (page : PageC) (hf : fetchO (normalize_url url) = some page) :
    crawl_worker fetchO robotsOk respect_robots follow max_pages st =
      crawl_worker fetchO robotsOk respect_robots follow max_pages
        ⟨normalize_url url :: st.visited,
          rest ++ newLinksOf follow (normalize_url url :: st.visited) (normalize_url url)
            page.links,
          st.crawled ++ [page]⟩ := by
  conv_lhs => unfold crawl_worker
  split
  · rename_i heq
    rw [hv] at heq
    cases heq
  · rename_i url2 rest2 heq
    rw [hv] at heq
    injection heq with h1 h2
    subst h1
    subst h2
    rw [dif_pos hc, if_neg hm, if_neg hr, hf]

theorem crawl_worker_invariant (fetchO : Str → Option PageC) (robotsOk : Str → Bool)
    (respect_robots : Bool) (follow : Str → Str → Bool) (max_pages : Nat) (st : CrawlState) :
    st.crawled.length ≤ max_pages →
      (crawl_worker fetchO robotsOk respect_robots follow max_pages st).crawled.length
          ≤ max_pages ∧
      ((crawl_worker fetchO robotsOk respect_robots follow max_pages st).to_visit = [] ∨
        max_pages ≤
          (crawl_worker fetchO robotsOk respect_robots follow max_pages st).crawled.length) := by
  induction st using crawl_worker.induct fetchO robotsOk respect_robots follow max_pages with
  | case1 x hv =>
    intro hlen
    rw [crawl_worker_nil fetchO robotsOk respect_robots follow max_pages x hv]
    exact ⟨hlen, Or.inl hv⟩
  | case2 x url rest hv hc nurl hm ih =>
    intro hlen
    rw [crawl_worker_visited fetchO robotsOk respect_robots follow max_pages x url rest hv hc hm]
    exact ih hlen
  | case3 x url rest hv hc nurl hm visited2 hr ih =>
    intro hlen
    rw [crawl_worker_robots fetchO robotsOk respect_robots follow max_pages x url rest hv hc hm hr]
    exact ih hlen
  | case4 x url rest hv hc nurl hm visited2 hr hf ih =>
    intro hlen
    rw [crawl_worker_fetch_none fetchO robotsOk respect_robots follow max_pages x url rest hv hc
      hm hr hf]
    exact ih hlen
  | case5 x url rest hv hc nurl hm visited2 hr page hf newLinks ih =>
    intro hlen
    rw [crawl_worker_fetch_some fetchO robotsOk respect_robots follow max_pages x url rest hv hc
      hm hr page hf]
    apply ih
    simp only [List.length_append, List.length_cons, List.length_nil]
    omega
  | case6 x url rest hv hc =>
    intro hlen
    rw [crawl_worker_cap fetchO robotsOk respect_robots follow max_pages x url rest hv hc]
    exact ⟨hlen, Or.inr (by omega)⟩

/-- C9: from any finite seed list the single-worker crawl loop
terminates (crawl_worker is a total function, built by well-founded
recursion on the page budget and frontier length), collects at most
max_pages pages, and on termination either the frontier is empty or
exactly max_pages pages were collected; moreover crawling a single page
with no outbound links under max_pages = 5 returns exactly one page with
an empty frontier. -/
theorem c9_crawl_termination :
    (∀ (fetchO : Str → Option PageC) (robotsOk : Str → Bool) (respect_robots : Bool)
        (follow : Str → Str → Bool) (max_pages : Nat) (seeds : List Str),
      (crawl_worker fetchO robotsOk respect_robots follow max_pages
          ⟨[], seeds, []⟩).crawled.length ≤ max_pages ∧
      ((crawl_worker fetchO robotsOk respect_robots follow max_pages
          ⟨[], seeds, []⟩).to_visit = [] ∨
        (crawl_worker fetchO robotsOk respect_robots follow max_pages
          ⟨[], seeds, []⟩).crawled.length = max_pages)) ∧
    crawl_worker (fun u => if u = "http://site.com/a".data then some ⟨[]⟩ else none)
        (fun _ => true) false (fun _ _ => true) 5
        ⟨[], ["http://site.com/a".data], []⟩ =
      ⟨["http://site.com/a".data], [], [⟨[]⟩]⟩ := by
  constructor
  · intro fetchO robotsOk respect_robots follow max_pages seeds
    have h := crawl_worker_invariant fetchO robotsOk respect_robots follow max_pages
      ⟨[], seeds, []⟩ (by simp)
    refine ⟨h.1, ?_⟩
    rcases h.2 with h2 | h2
    · exact Or.inl h2
    · exact Or.inr (le_antisymm h.1 h2)
  · have hn : normalize_url ("http://site.com/a".data) = "http://site.com/a".data := by decide
    rw [crawl_worker_fetch_some
      (fun u => if u = "http://site.com/a".data then some ⟨[]⟩ else none)
      (fun _ => true) false (fun _ _ => true) 5
      ⟨[], ["http://site.com/a".data], []⟩ ("http://site.com/a".data) [] rfl (by decide)
      (by simp) (by simp) ⟨[]⟩ (by rw [hn]; simp)]
    rw [crawl_worker_nil _ _ _ _ _ _ rfl]
    rw [hn]
    rfl

theorem rank_fold_filterMap (st : InvIndex) (bt : ℝ) (q : List Str) (ids : List Nat) :
    ∀ acc : List (Nat × ℝ),
      ids.foldl (fun acc2 doc_id =>
        let m := (docGet st doc_id).getD defaultMeta
        let s := score_document st bt q doc_id m
        if 0 < s then acc2 ++ [(doc_id, s)] else acc2) acc =
      acc ++ ids.filterMap (scoreEntry st bt q) := by
  induction ids with
  | nil => intro acc; simp
  | cons d rest ih =>
    intro acc
    rw [List.foldl_cons, List.filterMap_cons]
    by_cases h : 0 < score_document st bt q d ((docGet st d).getD defaultMeta)
    · simp only [scoreEntry, if_pos h, ih]
      simp
    · simp only [scoreEntry, if_neg h, ih]

theorem rank_results_eq_sort (st : InvIndex) (bt : ℝ) (q : List Str) (ids : List Nat) :
    rank_results st bt q ids =
      List.insertionSort rdesc (ids.filterMap (scoreEntry st bt q)) := by
  unfold rank_results
  rw [rank_fold_filterMap]
  rw [List.nil_append]

theorem scoreEntry_eq_some {st : InvIndex} {bt : ℝ} {q : List Str} {d : Nat} {x : Nat × ℝ}
    (h : scoreEntry st bt q d = some x) : x.1 = d ∧ 0 < x.2 := by
  unfold scoreEntry at h
  by_cases hs : 0 < score_document st bt q d ((docGet st d).getD defaultMeta)
  · rw [if_pos hs] at h
    cases h
    exact ⟨rfl, hs⟩
  · rw [if_neg hs] at h
    cases h

theorem mem_filterMap_scoreEntry {st : InvIndex} {bt : ℝ} {q : List Str} {ids : List Nat}
    {x : Nat × ℝ} (hx : x ∈ ids.filterMap (scoreEntry st bt q)) : x.1 ∈ ids ∧ 0 < x.2 := by
  obtain ⟨a, ha, hfa⟩ := List.mem_filterMap.mp hx
  have h2 := scoreEntry_eq_some hfa
  exact ⟨h2.1 ▸ ha, h2.2⟩

theorem pairwise_rank_filterMap (st : InvIndex) (bt : ℝ) (q : List Str) (ids : List Nat) :
    ids.Nodup →
      (ids.filterMap (scoreEntry st bt q)).Pairwise
        (fun a b => ids.indexOf a.1 < ids.indexOf b.1) := by
  induction ids with
  | nil => intro _; simp
  | cons d rest ih =>
    intro hnd
    have hd : d ∉ rest := (List.nodup_cons.mp hnd).1
    have hrest : rest.Nodup := (List.nodup_cons.mp hnd).2
    rw [List.filterMap_cons]
    have htrans : (rest.filterMap (scoreEntry st bt q)).Pairwise
        (fun a b => (d :: rest).indexOf a.1 < (d :: rest).indexOf b.1) := by
      refine (ih hrest).imp_of_mem ?_
      intro a b hma hmb hab
      have hna : ¬a.1 = d := fun he => hd (he ▸ (mem_filterMap_scoreEntry hma).1)
      have hnb : ¬b.1 = d := fun he => hd (he ▸ (mem_filterMap_scoreEntry hmb).1)
      have hba : (d == a.1) = false := beq_eq_false_iff_ne.mpr (fun he => hna he.symm)
      have hbb : (d == b.1) = false := beq_eq_false_iff_ne.mpr (fun he => hnb he.symm)
      simp only [List.indexOf_cons, hba, hbb, cond_false]
      omega
    cases hse : scoreEntry st bt q d with
    | none => exact htrans
    | some x =>
      refine List.Pairwise.cons ?_ htrans
      intro y hy
      have hx1 : x.1 = d := (scoreEntry_eq_some hse).1
      have hy1 : y.1 ∈ rest := (mem_filterMap_scoreEntry hy).1
      have hyne : ¬y.1 = d := fun he => hd (he ▸ hy1)
      rw [hx1]
      have hbd : (d == d) = true := beq_self_eq_true d
      have hby : (d == y.1) = false := beq_eq_false_iff_ne.mpr (fun he => hyne he.symm)
      simp only [List.indexOf_cons, hbd, hby, cond_true, cond_false]
      omega

theorem pairwise_orderedInsert_stable (T : (Nat × ℝ) → (Nat × ℝ) → Prop)
    (hT : ∀ a b, ¬a.2 = b.2 → T a b) (x : Nat × ℝ) :
    ∀ l : List (Nat × ℝ), l.Pairwise T → (∀ y ∈ l, T x y) →
      (List.orderedInsert rdesc x l).Pairwise T := by
  intro l
  induction l with
  | nil => intro _ _; simp
  | cons y ys ih =>
    intro hp hx
    obtain ⟨hy_ys, hys⟩ := List.pairwise_cons.mp hp
    rw [List.orderedInsert]
    by_cases h : rdesc x y
    · rw [if_pos h]
      refine List.Pairwise.cons ?_ hp
      intro z hz
      exact hx z hz
    · rw [if_neg h]
      have hlt : x.2 < y.2 := not_le.mp h
      have hyx : T y x := hT y x (ne_of_gt hlt)
      refine List.Pairwise.cons ?_ (ih hys (fun z hz => hx z (List.mem_cons_of_mem _ hz)))
      intro z hz
      rcases (List.mem_orderedInsert rdesc).mp hz with rfl | hz2
      · exact hyx
      · exact hy_ys z hz2

theorem pairwise_insertionSort_stable (T : (Nat × ℝ) → (Nat × ℝ) → Prop)
    (hT : ∀ a b, ¬a.2 = b.2 → T a b) :
    ∀ l : List (Nat × ℝ), l.Pairwise T → (List.insertionSort rdesc l).Pairwise T := by
  intro l
  induction l with
  | nil => intro _; simp
  | cons x xs ih =>
    intro hp
    obtain ⟨hx, hxs⟩ := List.pairwise_cons.mp hp
    rw [List.insertionSort]
    apply pairwise_orderedInsert_stable T hT _ _ (ih hxs)
    intro y hy
    exact hx y ((List.perm_insertionSort rdesc xs).mem_iff.mp hy)

theorem search_eq_of_ne (setEnum : List Nat → List Nat) (st : InvIndex) (bt : ℝ)
    (q : List Str) (mr : Nat) (h : ¬setEnum (encounteredIds st q) = []) :
    search setEnum st bt q mr =
      ((List.insertionSort rdesc
          ((setEnum (encounteredIds st q)).filterMap (scoreEntry st bt q))).take mr).map
        (searchFormat st) := by
  unfold search
  rw [if_neg h, rank_results_eq_sort]

/-- C3 (amended): search returns at most max_results entries, every
returned entry has a strictly positive total score (documents scoring
≤ 0 are excluded), entries are ordered by score descending, and score
ties are broken by the enumeration order of the candidate-ID set, i.e.
the order of list(doc_ids_set) — a CPython hash-set order, not the
first-encountered docID order the claim states. -/
theorem c3_search_shape (setEnum : List Nat → List Nat) (st : InvIndex) (bt : ℝ)
    (q : List Str) (mr : Nat) (hnd : (setEnum (encounteredIds st q)).Nodup) :
    (search setEnum st bt q mr).length ≤ mr ∧
    (∀ e ∈ search setEnum st bt q mr, 0 < e.score) ∧
    (search setEnum st bt q mr).Pairwise (fun a b => b.score ≤ a.score) ∧
    (search setEnum st bt q mr).Pairwise (fun a b => a.score = b.score →
      (setEnum (encounteredIds st q)).indexOf a.doc_id
        < (setEnum (encounteredIds st q)).indexOf b.doc_id) := by
  by_cases hc : setEnum (encounteredIds st q) = []
  · unfold search
    rw [if_pos hc]
    simp
  · rw [search_eq_of_ne setEnum st bt q mr hc]
    refine ⟨?_, ?_, ?_, ?_⟩
    · rw [List.length_map]
      exact List.length_take_le _ _
    · intro e he
      obtain ⟨ds, hds, hfmt⟩ := List.mem_map.mp he
      have h1 : ds ∈ List.insertionSort rdesc
          ((setEnum (encounteredIds st q)).filterMap (scoreEntry st bt q)) :=
        (List.take_sublist _ _).mem hds
      have h2 : ds ∈ (setEnum (encounteredIds st q)).filterMap (scoreEntry st bt q) :=
        (List.perm_insertionSort rdesc _).mem_iff.mp h1
      have h3 := (mem_filterMap_scoreEntry h2).2
      rw [← hfmt]
      exact h3
    · have hs : (List.insertionSort rdesc
          ((setEnum (encounteredIds st q)).filterMap (scoreEntry st bt q))).Pairwise rdesc :=
        List.sorted_insertionSort rdesc _
      have ht := hs.sublist (List.take_sublist mr _)
      rw [List.pairwise_map]
      exact ht.imp (fun h => h)
    · have hbase := pairwise_rank_filterMap st bt q (setEnum (encounteredIds st q)) hnd
      have hT : ∀ a b : Nat × ℝ, ¬a.2 = b.2 →
          (a.2 = b.2 → (setEnum (encounteredIds st q)).indexOf a.1
            < (setEnum (encounteredIds st q)).indexOf b.1) :=
        fun a b hne he => absurd he hne
      have hbase2 : ((setEnum (encounteredIds st q)).filterMap (scoreEntry st bt q)).Pairwise
          (fun a b => a.2 = b.2 → (setEnum (encounteredIds st q)).indexOf a.1
            < (setEnum (encounteredIds st q)).indexOf b.1) := by
        refine hbase.imp ?_
        intro a b h
        exact fun _ => h
      have hstable := pairwise_insertionSort_stable _ hT _ hbase2
      have ht := hstable.sublist (List.take_sublist mr _)
      rw [List.pairwise_map]
      exact ht.imp (fun h => h)

theorem c3_search_shape_witness :
    (search (fun l => l) exIndex 2 ["a".data] 10).length ≤ 10 ∧
    (∀ e ∈ search (fun l => l) exIndex 2 ["a".data] 10, 0 < e.score) ∧
    (search (fun l => l) exIndex 2 ["a".data] 10).Pairwise (fun a b => b.score ≤ a.score) ∧
    (search (fun l => l) exIndex 2 ["a".data] 10).Pairwise (fun a b => a.score = b.score →
      (encounteredIds exIndex ["a".data]).indexOf a.doc_id
        < (encounteredIds exIndex ["a".data]).indexOf b.doc_id) :=
  c3_search_shape (fun l => l) exIndex 2 ["a".data] 10 (by decide)

/-- C3 (counterexample): score ties are NOT broken by first-encountered
docID order: in exIndex the postings of "a" present doc 1 before doc 8
(encounteredIds = [1, 8]), both documents score Real.log (3/2), but the
CPython set enumeration (pySet8, slots read in hash order) yields
[8, 1], and the stable descending sort keeps that order, so search
returns doc 8 before doc 1. -/
theorem c3_search_tie_order_cex :
    (search pySet8 exIndex 2 ["a".data] 10).map (fun e => e.doc_id) = [8, 1] ∧
    ([8, 1] : List Nat) ≠ [1, 8] ∧
    (search pySet8 exIndex 2 ["a".data] 10).map (fun e => e.score) =
      [Real.log ((3 : ℝ) / 2), Real.log ((3 : ℝ) / 2)] ∧
    encounteredIds exIndex ["a".data] = [1, 8] := by
  have hidf : calculate_idf exIndex ("a".data) = Real.log ((3 : ℝ) / 2) := by
    unfold calculate_idf
    rw [show get_postings exIndex ("a".data) = [(1, 1, [0]), (8, 1, [0])] from by decide,
      show exIndex.document_count = 3 from by decide]
    have h1 : ¬([((1 : Nat), (1 : Nat), ([0] : List Nat)), (8, 1, [0])] : List Posting) = [] := by
      decide
    simp only [if_neg h1]
    norm_num
  have hpos : 0 < Real.log ((3 : ℝ) / 2) := Real.log_pos (by norm_num)
  have hsc : ∀ d : Nat, d = 1 ∨ d = 8 →
      score_document exIndex 2 ["a".data] d defaultMeta = Real.log ((3 : ℝ) / 2) := by
    intro d hd
    have htf : tfSpec exIndex ("a".data) d = 1 := by
      rcases hd with rfl | rfl
      · unfold tfSpec
        rw [show (get_postings exIndex ("a".data)).find? (fun p => p.1 == 1)
            = some (1, 1, [0]) from by decide]
        norm_num
      · unfold tfSpec
        rw [show (get_postings exIndex ("a".data)).find? (fun p => p.1 == 8)
            = some (8, 1, [0]) from by decide]
        norm_num
    unfold score_document
    rw [score_document_foldl_sum, zero_add]
    simp [htf, hidf,
      show pyIn (pyLower ("a".data)) (pyLower defaultMeta.title) = false from by decide]
  have hd8 : (docGet exIndex 8).getD defaultMeta = defaultMeta := by decide
  have hd1 : (docGet exIndex 1).getD defaultMeta = defaultMeta := by decide
  have hse8 : scoreEntry exIndex 2 ["a".data] 8 = some (8, Real.log ((3 : ℝ) / 2)) := by
    unfold scoreEntry
    rw [hd8]
    simp only [hsc 8 (Or.inr rfl)]
    rw [if_pos hpos]
  have hse1 : scoreEntry exIndex 2 ["a".data] 1 = some (1, Real.log ((3 : ℝ) / 2)) := by
    unfold scoreEntry
    rw [hd1]
    simp only [hsc 1 (Or.inl rfl)]
    rw [if_pos hpos]
  have hset : pySet8 (encounteredIds exIndex ["a".data]) = [8, 1] := by decide
  have hne : ¬pySet8 (encounteredIds exIndex ["a".data]) = [] := by
    rw [hset]
    simp
  have hfm : ([8, 1] : List Nat).filterMap (scoreEntry exIndex 2 ["a".data]) =
      [(8, Real.log ((3 : ℝ) / 2)), (1, Real.log ((3 : ℝ) / 2))] := by
    rw [List.filterMap_cons, hse8, List.filterMap_cons, hse1, List.filterMap_nil]
  have hsearch : search pySet8 exIndex 2 ["a".data] 10 =
      [searchFormat exIndex (8, Real.log ((3 : ℝ) / 2)),
       searchFormat exIndex (1, Real.log ((3 : ℝ) / 2))] := by
    rw [search_eq_of_ne pySet8 exIndex 2 ["a".data] 10 hne, hset, hfm]
    simp only [List.insertionSort, List.orderedInsert]
    rw [if_pos (show rdesc (8, Real.log ((3 : ℝ) / 2)) (1, Real.log ((3 : ℝ) / 2)) from
      le_refl _)]
    rfl
  refine ⟨?_, by decide, ?_, by decide⟩
  · rw [hsearch]
    rfl
  · rw [hsearch]
    rfl

end SearchSpec
